import Mathlib

/-!
# Verification of the Grassmann manifold geometry contract

This development formalises, over exact real arithmetic, the geometric
contract of the Grassmann manifold layer of the `pymanopt` manifold
library.  Points are `m × n` real matrices with orthonormal columns and
tangent vectors are `m × n` real matrices; the `k`-batched variants are
families `Fin k → Matrix (Fin m) (Fin n) ℝ` stacked along a leading axis.

The repository excerpt ships only the package manifest and the Grassmann
test-suite; the module `pymanopt/manifolds/grassmann.py` and the helper
modules `pymanopt/tools/multi.py` and `pymanopt/tools/testing.py` are not
part of the excerpt.  Those operations are therefore modelled from the
specification (its §4.1, §4.3 and the testing contract of §8), as noted
in each doc-string.  The external numeric backend (spec §6) supplies the
singular value decompositions consumed by `exp`, `log` and `dist`; here
an SVD is passed as explicit factors together with the `IsSVD` predicate
stating the thin-SVD contract, and the theorems hold for the factor
choices that the formulas of the spec produce.  Numerical-tolerance
statements of the spec are rendered as exact equalities of real numbers.
-/

open Matrix Real
open scoped RealInnerProductSpace

noncomputable section

/-- An `m × n` real matrix: one batch slice of a point, tangent vector or
ambient array. -/
abbrev Mat (m n : ℕ) : Type := Matrix (Fin m) (Fin n) ℝ

/-- A `k`-batched stack of `m × n` real matrices (leading batch axis). -/
abbrev BMat (k m n : ℕ) : Type := Fin k → Mat m n

/-- Modelled from the spec: the `DomainError` of §7, raised by `log` when
two points are outside each other's injectivity radius (the module that
defines it is not part of the excerpt). -/
inductive DomainError : Type where
  | domainError : DomainError
deriving DecidableEq

/-- Modelled from the spec (§4.1, `pymanopt/tools/multi.py` is not in the
excerpt): batched matrix product, per batch slice. -/
def multiprod {k m n p : ℕ} (A : BMat k m n) (B : BMat k n p) : BMat k m p :=
  fun i => A i * B i

/-- Modelled from the spec (§4.1): transpose of the trailing two axes only. -/
def multitransp {k m n : ℕ} (A : BMat k m n) : BMat k n m :=
  fun i => (A i)ᵀ

/-- Modelled from the spec (§4.1): `(A + Aᵀ)/2` per batch slice. -/
def multisym {k n : ℕ} (A : BMat k n n) : BMat k n n :=
  fun i => (2⁻¹ : ℝ) • (A i + (A i)ᵀ)

/-- Modelled from the spec (§4.1): `k` stacked `n × n` identity matrices. -/
def multieye (k n : ℕ) : BMat k n n :=
  fun _ => 1

instance (n : ℕ) : WellFoundedLT (Fin n) :=
  Finite.to_wellFoundedLT

namespace Grassmann

variable {m n : ℕ}

/-- Modelled from the spec (§4.3, `grassmann.py` is not in the excerpt):
`inner(x,u,v) = sum(u*v)`, the flat embedding metric. -/
def inner (_x u v : Mat m n) : ℝ :=
  ∑ i, ∑ j, u i j * v i j

/-- Modelled from the spec (§4.2): `norm(x,u) = sqrt(inner(x,u,u))`. -/
def norm (x u : Mat m n) : ℝ :=
  Real.sqrt (inner x u u)

/-- Modelled from the spec (§4.3): `projection(x,h) = h - x @ (xᵀ @ h)`. -/
def projection (x h : Mat m n) : Mat m n :=
  h - x * (xᵀ * h)

/-- Modelled from the spec (§4.3): the Euclidean-to-Riemannian Hessian
conversion `proj(ehess) - u·(xᵀ·egrad)`, the embedded-submanifold
curvature correction subtracting the normal component of `egrad`
contracted with the direction `u`. -/
def ehess2rhess (x egrad ehess u : Mat m n) : Mat m n :=
  projection x ehess - u * (xᵀ * egrad)

/-- Modelled from the spec (§8.9, `pymanopt/tools/testing.py` is not in
the excerpt): the projection-based reference Hessian conversion for an
embedded submanifold with projector `P x h = h - x·(xᵀ·h)`.  It applies
the projector to `ehess` plus the directional derivative of `x ↦ P x`
along `u` evaluated at `egrad`; for this projector that derivative is
`-(u·xᵀ + x·uᵀ)·egrad`. -/
def ehess2rhessRef (x egrad ehess u : Mat m n) : Mat m n :=
  projection x (ehess - u * (xᵀ * egrad) - x * (uᵀ * egrad))

/-- Modelled from the spec (§4.3): `random_tangent_vector(x)` projects an
ambient Gaussian draw `h` (supplied by the backend, §6) onto the tangent
space at `x` and normalizes it to unit norm. -/
def randomTangentVector (x h : Mat m n) : Mat m n :=
  (norm x (projection x h))⁻¹ • projection x h

/-- The thin-SVD contract for factors `(W, S, V)` of an `m × n` matrix
`M`: `M = W·diag S·Vᵀ` with `W` having orthonormal columns, `V` square
orthogonal and nonnegative singular values `S` (spec §6: the SVD itself
is supplied by the numeric backend). -/
def IsSVD {m n : ℕ} (M W : Mat m n) (S : Fin n → ℝ) (V : Matrix (Fin n) (Fin n) ℝ) : Prop :=
  M = W * Matrix.diagonal S * Vᵀ ∧ Wᵀ * W = 1 ∧ Vᵀ * V = 1 ∧ V * Vᵀ = 1 ∧ ∀ i, 0 ≤ S i

/-- Modelled from the spec (§4.3): the exponential map computed from the
thin-SVD factors of the tangent `u = W·diag θ·Vᵀ` supplied by the
backend: `exp(x,u) = x·V·cos(diag θ)·Vᵀ + W·sin(diag θ)·Vᵀ`, the cos/sin
combination of the singular values applied to `W, V`. -/
def exp (x W : Mat m n) (θ : Fin n → ℝ) (V : Matrix (Fin n) (Fin n) ℝ) : Mat m n :=
  x * V * Matrix.diagonal (fun i => Real.cos (θ i)) * Vᵀ +
    W * Matrix.diagonal (fun i => Real.sin (θ i)) * Vᵀ

/-- Modelled from the spec (§4.3): the matrix whose SVD drives `log`:
`y`'s projection residual relative to `x`, normalized on the right by
`(xᵀ·y)⁻¹` so that its singular values are the tangents of the principal
angles. -/
def logArg (x y : Mat m n) : Mat m n :=
  (y - x * (xᵀ * y)) * (xᵀ * y)⁻¹

/-- Modelled from the spec (§4.3): `log(x,y)` applies arctan to the
singular values of `logArg x y`; `(W, S, V)` are the SVD factors of
`logArg x y` supplied by the backend. -/
def log (W : Mat m n) (S : Fin n → ℝ) (V : Matrix (Fin n) (Fin n) ℝ) : Mat m n :=
  W * Matrix.diagonal (fun i => Real.arctan (S i)) * Vᵀ

open Classical in
/-- Modelled from the spec (§7): `log` wrapped in its failure mode; it
raises `DomainError` when the inverse in `logArg` does not exist, i.e.
when `xᵀ·y` is singular (antipodal / non-unique subspaces), and succeeds
otherwise. -/
def logE (x y W : Mat m n) (S : Fin n → ℝ) (V : Matrix (Fin n) (Fin n) ℝ) :
    Except DomainError (Mat m n) :=
  if IsUnit (xᵀ * y).det then Except.ok (log W S V) else Except.error DomainError.domainError

/-- Modelled from the spec (§4.3): `dist(x,y)`, the square root of the
sum of squared principal angles; `S` holds the singular values of
`xᵀ·y` supplied by the backend, whose arccos are the principal angles. -/
def dist (S : Fin n → ℝ) : ℝ :=
  Real.sqrt (∑ i, Real.arccos (S i) ^ 2)

/-- The columns of a matrix, viewed as vectors of the Euclidean space
`ℝ^m` with its `L²` inner product. -/
def cols (A : Mat m n) : Fin n → EuclideanSpace ℝ (Fin m) :=
  fun j => (WithLp.equiv 2 (Fin m → ℝ)).symm (fun i => A i j)

/-- Orthonormalization of a family of `n` vectors of `ℝ^m` into an
`m × n` matrix via Gram–Schmidt (the QR-style factorization of the
spec, §4.3, delegated to the backend per §6). -/
def orthonormalize (f : Fin n → EuclideanSpace ℝ (Fin m)) : Mat m n :=
  Matrix.of fun i j => gramSchmidtNormed ℝ f j i

/-- Modelled from the spec (§4.3): `rand()` orthonormalizes the columns
of a Gaussian draw `A` supplied by the backend. -/
def rand (A : Mat m n) : Mat m n :=
  orthonormalize (cols A)

/-- Modelled from the spec (§4.3): `retraction(x,u)` computes an
orthonormal basis of `x + u` via QR-style (Gram–Schmidt)
factorization. -/
def retraction (x u : Mat m n) : Mat m n :=
  orthonormalize (cols (x + u))

/-- The data of a geodesic normal form at a base point `x`: `x` has
orthonormal columns, `W` has orthonormal columns spanning directions
normal to `x`, `V` is square orthogonal and `θ` holds the nonnegative
principal angles.  A tangent with backend thin SVD `(W, θ, V)` is
`u = W·diag θ·Vᵀ` and the geodesic endpoint is `exp x W θ V`. -/
structure GeodesicForm (x W : Mat m n) (θ : Fin n → ℝ)
    (V : Matrix (Fin n) (Fin n) ℝ) : Prop where
  hx : xᵀ * x = 1
  hxW : xᵀ * W = 0
  hW : Wᵀ * W = 1
  hV : Vᵀ * V = 1
  hV' : V * Vᵀ = 1
  hθ : ∀ i, 0 ≤ θ i

end Grassmann

/-- Batched `rand` (spec §3: per batch slice identically). -/
def Grassmann.randB {k m n : ℕ} (A : BMat k m n) : BMat k m n :=
  fun i => Grassmann.rand (A i)

/-- Batched `projection`, written with the batched helpers of §4.1. -/
def Grassmann.projectionB {k m n : ℕ} (X H : BMat k m n) : BMat k m n :=
  H - multiprod X (multiprod (multitransp X) H)

/-- Batched `random_tangent_vector` (spec §3: per batch slice). -/
def Grassmann.randomTangentVectorB {k m n : ℕ} (X H : BMat k m n) : BMat k m n :=
  fun i => Grassmann.randomTangentVector (X i) (H i)

/-- Batched `inner`: the flat metric sums over the batch axis as well. -/
def Grassmann.innerB {k m n : ℕ} (x u v : BMat k m n) : ℝ :=
  ∑ i, Grassmann.inner (x i) (u i) (v i)

/-- Batched `norm = sqrt(inner(x,u,u))`. -/
def Grassmann.normB {k m n : ℕ} (x u : BMat k m n) : ℝ :=
  Real.sqrt (Grassmann.innerB x u u)

/-- A batched array flattened into the Euclidean space `ℝ^(k·m·n)`; its
norm is the flat (Frobenius) norm of the whole stack. -/
def Grassmann.flatten {k m n : ℕ} (u : BMat k m n) :
    EuclideanSpace ℝ (Fin k × Fin m × Fin n) :=
  (WithLp.equiv 2 (Fin k × Fin m × Fin n → ℝ)).symm (fun p => u p.1 p.2.1 p.2.2)

/-- Batched `log` (spec §3: per batch slice); `S i` holds the backend
singular values of `logArg (x i) (y i)` for slice `i`. -/
def Grassmann.logB {k m n : ℕ} (W : BMat k m n) (S : Fin k → Fin n → ℝ)
    (V : Fin k → Matrix (Fin n) (Fin n) ℝ) : BMat k m n :=
  fun i => Grassmann.log (W i) (S i) (V i)

/-- Modelled from the spec (§4.3 with the batch convention of §3):
batched `dist(x,y)` is a single scalar aggregating the squared principal
angles of every batch slice, square-rooted; `S i` holds the backend
singular values of `(x i)ᵀ·(y i)`. -/
def Grassmann.distB {k n : ℕ} (S : Fin k → Fin n → ℝ) : ℝ :=
  Real.sqrt (∑ i, ∑ j, Real.arccos (S i j) ^ 2)

namespace Grassmann

variable {m n : ℕ}

/-- With orthonormal columns, `xᵀ` annihilates the tangent-space
projection: the projected vector has no component along `x`. -/
lemma transpose_mul_projection (x h : Mat m n) (hx : xᵀ * x = 1) :
    xᵀ * projection x h = 0 := by
  unfold projection
  rw [Matrix.mul_sub, ← Matrix.mul_assoc, hx, Matrix.one_mul, sub_self]

lemma transpose_mul_mul_cancel (x : Mat m n) {p : ℕ} (t : Matrix (Fin n) (Fin p) ℝ)
    (hx : xᵀ * x = 1) : xᵀ * (x * t) = t := by
  rw [← Matrix.mul_assoc, hx, Matrix.one_mul]

lemma transpose_mul_mul_zero (x u : Mat m n) {p : ℕ} (t : Matrix (Fin n) (Fin p) ℝ)
    (hu : xᵀ * u = 0) : xᵀ * (u * t) = 0 := by
  rw [← Matrix.mul_assoc, hu, Matrix.zero_mul]

end Grassmann

/-- **C6.** `projection(x,H)` is `H - x @ (xᵀ @ H)` applied per batch
slice, and (membership given) it removes the whole component of `H`
along the subspace spanned by `x`'s columns. -/
theorem grassmann_projection_removes_component {k m n : ℕ} (X H : BMat k m n)
    (hX : ∀ i, (X i)ᵀ * X i = 1) :
    (∀ i, Grassmann.projectionB X H i = H i - X i * ((X i)ᵀ * H i)) ∧
      multiprod (multitransp X) (Grassmann.projectionB X H) = 0 := by
  have hslice : ∀ i, Grassmann.projectionB X H i = Grassmann.projection (X i) (H i) := by
    intro i; rfl
  refine ⟨fun i => hslice i, ?_⟩
  funext i
  show (X i)ᵀ * Grassmann.projectionB X H i = 0
  rw [hslice i, Grassmann.transpose_mul_projection _ _ (hX i)]

/-- Witness for C6 at `k = 1`, `m = 2`, `n = 1`. -/
theorem grassmann_projection_removes_component_witness :
    (∀ i : Fin 1, ((fun _ : Fin 1 => (!![1; 0] : Mat 2 1)) i)ᵀ *
        (fun _ : Fin 1 => (!![1; 0] : Mat 2 1)) i = 1) ∧
      ((∀ i, Grassmann.projectionB (fun _ : Fin 1 => (!![1; 0] : Mat 2 1))
          (fun _ : Fin 1 => (!![3; 5] : Mat 2 1)) i =
          (fun _ : Fin 1 => (!![3; 5] : Mat 2 1)) i -
            (fun _ : Fin 1 => (!![1; 0] : Mat 2 1)) i *
              (((fun _ : Fin 1 => (!![1; 0] : Mat 2 1)) i)ᵀ *
                (fun _ : Fin 1 => (!![3; 5] : Mat 2 1)) i)) ∧
        multiprod (multitransp (fun _ : Fin 1 => (!![1; 0] : Mat 2 1)))
          (Grassmann.projectionB (fun _ : Fin 1 => (!![1; 0] : Mat 2 1))
            (fun _ : Fin 1 => (!![3; 5] : Mat 2 1))) = 0) := by
  have hX : ∀ i : Fin 1, ((fun _ : Fin 1 => (!![1; 0] : Mat 2 1)) i)ᵀ *
      (fun _ : Fin 1 => (!![1; 0] : Mat 2 1)) i = 1 := by
    intro i
    ext a b
    fin_cases a; fin_cases b
    simp [Matrix.mul_apply, Fin.sum_univ_succ]
  exact ⟨hX, grassmann_projection_removes_component _ _ hX⟩

/-- **C7.** The Grassmann `ehess2rhess` coincides with the
projection-based reference conversion at every point with orthonormal
columns and every tangent direction. -/
theorem grassmann_ehess2rhess_matches_reference {m n : ℕ} (x egrad ehess u : Mat m n)
    (hx : xᵀ * x = 1) (hu : xᵀ * u = 0) :
    Grassmann.ehess2rhess x egrad ehess u = Grassmann.ehess2rhessRef x egrad ehess u := by
  unfold Grassmann.ehess2rhess Grassmann.ehess2rhessRef Grassmann.projection
  simp only [Matrix.mul_sub]
  rw [Grassmann.transpose_mul_mul_zero x u _ hu,
    Grassmann.transpose_mul_mul_cancel x _ hx, Matrix.mul_zero]
  abel

/-- Witness for C7 at `m = 2`, `n = 1`. -/
theorem grassmann_ehess2rhess_matches_reference_witness :
    ((!![1; 0] : Mat 2 1)ᵀ * (!![1; 0] : Mat 2 1) = 1 ∧
        (!![1; 0] : Mat 2 1)ᵀ * (!![0; 1] : Mat 2 1) = 0) ∧
      Grassmann.ehess2rhess (!![1; 0] : Mat 2 1) !![2; 3] !![7; 11] !![0; 1] =
        Grassmann.ehess2rhessRef (!![1; 0] : Mat 2 1) !![2; 3] !![7; 11] !![0; 1] := by
  have hx : (!![1; 0] : Mat 2 1)ᵀ * (!![1; 0] : Mat 2 1) = 1 := by
    ext a b; fin_cases a; fin_cases b
    simp [Matrix.mul_apply, Fin.sum_univ_succ]
  have hu : (!![1; 0] : Mat 2 1)ᵀ * (!![0; 1] : Mat 2 1) = 0 := by
    ext a b; fin_cases a; fin_cases b
    simp [Matrix.mul_apply, Fin.sum_univ_succ]
  exact ⟨⟨hx, hu⟩, grassmann_ehess2rhess_matches_reference _ _ _ _ hx hu⟩

/-- **C5.** `random_tangent_vector` returns a vector in the tangent
space: `xᵀ·u` vanishes per batch slice, hence so does the symmetric part
`multisym(multitransp(X) @ U)`. -/
theorem grassmann_random_tangent_tangency {k m n : ℕ} (X H : BMat k m n)
    (hX : ∀ i, (X i)ᵀ * X i = 1) :
    multiprod (multitransp X) (Grassmann.randomTangentVectorB X H) = 0 ∧
      multisym (multiprod (multitransp X) (Grassmann.randomTangentVectorB X H)) = 0 := by
  have h1 : multiprod (multitransp X) (Grassmann.randomTangentVectorB X H) = 0 := by
    funext i
    show (X i)ᵀ * Grassmann.randomTangentVector (X i) (H i) = 0
    unfold Grassmann.randomTangentVector
    rw [Matrix.mul_smul, Grassmann.transpose_mul_projection _ _ (hX i), smul_zero]
  refine ⟨h1, ?_⟩
  rw [h1]
  funext i
  simp [multisym]


/-- Witness for C5 at `k = 1`, `m = 2`, `n = 1`. -/
theorem grassmann_random_tangent_tangency_witness :
    (∀ i : Fin 1, ((fun _ : Fin 1 => (!![1; 0] : Mat 2 1)) i)ᵀ *
        (fun _ : Fin 1 => (!![1; 0] : Mat 2 1)) i = 1) ∧
      (multiprod (multitransp (fun _ : Fin 1 => (!![1; 0] : Mat 2 1)))
          (Grassmann.randomTangentVectorB (fun _ : Fin 1 => (!![1; 0] : Mat 2 1))
            (fun _ : Fin 1 => (!![2; 4] : Mat 2 1))) = 0 ∧
        multisym (multiprod (multitransp (fun _ : Fin 1 => (!![1; 0] : Mat 2 1)))
          (Grassmann.randomTangentVectorB (fun _ : Fin 1 => (!![1; 0] : Mat 2 1))
            (fun _ : Fin 1 => (!![2; 4] : Mat 2 1)))) = 0) := by
  have hX : ∀ i : Fin 1, ((fun _ : Fin 1 => (!![1; 0] : Mat 2 1)) i)ᵀ *
      (fun _ : Fin 1 => (!![1; 0] : Mat 2 1)) i = 1 := by
    intro i
    ext a b
    fin_cases a; fin_cases b
    simp [Matrix.mul_apply, Fin.sum_univ_succ]
  exact ⟨hX, grassmann_random_tangent_tangency _ _ hX⟩

namespace Grassmann

variable {m n : ℕ}

lemma sandwich_mul (V : Matrix (Fin n) (Fin n) ℝ) (hV : Vᵀ * V = 1)
    (a b : Fin n → ℝ) :
    (V * Matrix.diagonal a * Vᵀ) * (V * Matrix.diagonal b * Vᵀ) =
      V * Matrix.diagonal (fun i => a i * b i) * Vᵀ := by
  simp only [Matrix.mul_assoc]
  rw [← Matrix.mul_assoc Vᵀ V, hV, Matrix.one_mul,
    ← Matrix.mul_assoc (Matrix.diagonal a), Matrix.diagonal_mul_diagonal]

lemma sandwich_one (V : Matrix (Fin n) (Fin n) ℝ) (hV' : V * Vᵀ = 1)
    (a : Fin n → ℝ) (ha : ∀ i, a i = 1) :
    V * Matrix.diagonal a * Vᵀ = 1 := by
  have h : Matrix.diagonal a = 1 := by
    rw [show a = fun _ => (1 : ℝ) from funext ha, Matrix.diagonal_one]
  rw [h, Matrix.mul_one, hV']

variable {x W : Mat m n} {θ : Fin n → ℝ} {V : Matrix (Fin n) (Fin n) ℝ}

lemma GeodesicForm.hWx (g : GeodesicForm x W θ V) : Wᵀ * x = 0 := by
  have h := congrArg Matrix.transpose g.hxW
  rwa [Matrix.transpose_mul, Matrix.transpose_transpose, Matrix.transpose_zero] at h

/-- `xᵀ·y` along a geodesic is `V·cos(diag θ)·Vᵀ`. -/
lemma GeodesicForm.xty (g : GeodesicForm x W θ V) :
    xᵀ * exp x W θ V = V * Matrix.diagonal (fun i => Real.cos (θ i)) * Vᵀ := by
  unfold exp
  rw [Matrix.mul_add]
  simp only [← Matrix.mul_assoc]
  rw [g.hx, g.hxW, Matrix.one_mul, Matrix.zero_mul, Matrix.zero_mul, add_zero]

/-- `Wᵀ·y` along a geodesic is `sin(diag θ)·Vᵀ`. -/
lemma GeodesicForm.wty (g : GeodesicForm x W θ V) :
    Wᵀ * exp x W θ V = Matrix.diagonal (fun i => Real.sin (θ i)) * Vᵀ := by
  unfold exp
  rw [Matrix.mul_add]
  simp only [← Matrix.mul_assoc]
  rw [g.hW, g.hWx, Matrix.one_mul]
  simp

/-- The projection residual of the geodesic endpoint relative to `x`. -/
lemma GeodesicForm.resid (g : GeodesicForm x W θ V) :
    exp x W θ V - x * (xᵀ * exp x W θ V) =
      W * Matrix.diagonal (fun i => Real.sin (θ i)) * Vᵀ := by
  rw [g.xty]
  unfold exp
  simp only [← Matrix.mul_assoc]
  abel

/-- The inverse of `xᵀ·y` along a geodesic with all angles strictly
inside the injectivity radius. -/
lemma GeodesicForm.inv_xty (g : GeodesicForm x W θ V)
    (hc : ∀ i, Real.cos (θ i) ≠ 0) :
    (xᵀ * exp x W θ V)⁻¹ =
      V * Matrix.diagonal (fun i => (Real.cos (θ i))⁻¹) * Vᵀ := by
  apply Matrix.inv_eq_right_inv
  rw [g.xty, sandwich_mul V g.hV]
  exact sandwich_one V g.hV' _ fun i => mul_inv_cancel₀ (hc i)

/-- The matrix whose backend SVD drives `log` is exactly
`W·tan(diag θ)·Vᵀ` along a geodesic. -/
lemma GeodesicForm.logArg_eq (g : GeodesicForm x W θ V)
    (hc : ∀ i, Real.cos (θ i) ≠ 0) :
    logArg x (exp x W θ V) = W * Matrix.diagonal (fun i => Real.tan (θ i)) * Vᵀ := by
  unfold logArg
  rw [g.resid, g.inv_xty hc]
  simp only [Matrix.mul_assoc]
  rw [← Matrix.mul_assoc Vᵀ V, g.hV, Matrix.one_mul,
    ← Matrix.mul_assoc (Matrix.diagonal fun i => Real.sin (θ i)),
    Matrix.diagonal_mul_diagonal]
  have h : (fun i => Real.sin (θ i) * (Real.cos (θ i))⁻¹) = fun i => Real.tan (θ i) :=
    funext fun i => by rw [Real.tan_eq_sin_div_cos, div_eq_mul_inv]
  rw [h]

lemma sandwich_sum (V : Matrix (Fin n) (Fin n) ℝ) (hV' : V * Vᵀ = 1)
    (a b : Fin n → ℝ) (hab : ∀ i, a i * a i + b i * b i = 1) :
    V * (Matrix.diagonal a * (Matrix.diagonal a * Vᵀ)) +
      V * (Matrix.diagonal b * (Matrix.diagonal b * Vᵀ)) = 1 := by
  rw [← Matrix.mul_assoc (Matrix.diagonal a), ← Matrix.mul_assoc (Matrix.diagonal b),
    Matrix.diagonal_mul_diagonal, Matrix.diagonal_mul_diagonal, ← Matrix.mul_add,
    ← Matrix.add_mul, Matrix.diagonal_add]
  have h : (fun i => a i * a i + b i * b i) = fun _ => (1 : ℝ) :=
    funext fun i => hab i
  rw [h, Matrix.diagonal_one, Matrix.one_mul, hV']

/-- The geodesic endpoint lies on the manifold: `yᵀ·y = 1`. -/
lemma GeodesicForm.yty (g : GeodesicForm x W θ V) :
    (exp x W θ V)ᵀ * exp x W θ V = 1 := by
  unfold exp
  rw [Matrix.transpose_add, Matrix.add_mul, Matrix.mul_add, Matrix.mul_add]
  simp only [Matrix.transpose_mul, Matrix.transpose_transpose, Matrix.diagonal_transpose,
    Matrix.mul_assoc]
  rw [transpose_mul_mul_cancel x _ g.hx, transpose_mul_mul_zero x W _ g.hxW,
    transpose_mul_mul_zero W x _ g.hWx, transpose_mul_mul_cancel W _ g.hW,
    transpose_mul_mul_cancel V _ g.hV]
  simp only [Matrix.mul_zero, add_zero, zero_add]
  exact sandwich_sum V g.hV' _ _ fun i => by
    rw [← Real.cos_sq_add_sin_sq (θ i)]; ring

/-- The determinant of `xᵀ·y` along a geodesic is the product of the
cosines of the principal angles. -/
lemma GeodesicForm.det_xty (g : GeodesicForm x W θ V) :
    (xᵀ * exp x W θ V).det = ∏ i, Real.cos (θ i) := by
  rw [g.xty, Matrix.det_mul, Matrix.det_mul, Matrix.det_diagonal]
  have h1 : V.det * Vᵀ.det = 1 := by
    rw [← Matrix.det_mul, g.hV', Matrix.det_one]
  calc V.det * (∏ i, Real.cos (θ i)) * Vᵀ.det
      = V.det * Vᵀ.det * ∏ i, Real.cos (θ i) := by ring
    _ = ∏ i, Real.cos (θ i) := by rw [h1, one_mul]

/-- The flat inner product of a matrix with itself is the trace of its
Gram matrix. -/
lemma inner_eq_trace (x u : Mat m n) : inner x u u = Matrix.trace (uᵀ * u) := by
  unfold Matrix.trace Matrix.diag inner
  simp only [Matrix.mul_apply, Matrix.transpose_apply]
  exact Finset.sum_comm

/-- The flat self-inner-product of `W·diag a·Vᵀ` with orthonormal
factors is the sum of squared singular values. -/
lemma inner_factors (xb Wm : Mat m n) (Vm : Matrix (Fin n) (Fin n) ℝ)
    (hW : Wmᵀ * Wm = 1) (hV : Vmᵀ * Vm = 1) (a : Fin n → ℝ) :
    inner xb (Wm * Matrix.diagonal a * Vmᵀ) (Wm * Matrix.diagonal a * Vmᵀ)
      = ∑ i, a i ^ 2 := by
  rw [inner_eq_trace]
  simp only [Matrix.transpose_mul, Matrix.transpose_transpose, Matrix.diagonal_transpose,
    Matrix.mul_assoc]
  rw [transpose_mul_mul_cancel Wm _ hW, ← Matrix.mul_assoc (Matrix.diagonal a),
    Matrix.diagonal_mul_diagonal, Matrix.trace_mul_comm, Matrix.mul_assoc, hV,
    Matrix.mul_one, Matrix.trace_diagonal]
  exact Finset.sum_congr rfl fun i _ => (pow_two (a i)).symm

/-- The flat norm of `W·diag a·Vᵀ` with orthonormal factors is the
Euclidean norm of `a`. -/
lemma norm_factors (xb Wm : Mat m n) (Vm : Matrix (Fin n) (Fin n) ℝ)
    (hW : Wmᵀ * Wm = 1) (hV : Vmᵀ * Vm = 1) (a : Fin n → ℝ) :
    norm xb (Wm * Matrix.diagonal a * Vmᵀ) = Real.sqrt (∑ i, a i ^ 2) := by
  unfold norm
  rw [inner_factors xb Wm Vm hW hV a]

lemma cos_pos_of_angle {t : ℝ} (h0 : 0 ≤ t) (h2 : t < π / 2) : 0 < Real.cos t :=
  Real.cos_pos_of_mem_Ioo
    ⟨lt_of_lt_of_le (neg_lt_zero.mpr Real.pi_div_two_pos) h0, h2⟩

/-- Along a geodesic strictly inside the injectivity radius, the factors
`(W, tan θ, V)` form a thin SVD of the matrix whose SVD drives `log`. -/
lemma GeodesicForm.isSVD_logArg (g : GeodesicForm x W θ V)
    (hθ2 : ∀ i, θ i < π / 2) :
    IsSVD (logArg x (exp x W θ V)) W (fun i => Real.tan (θ i)) V := by
  have hc : ∀ i, Real.cos (θ i) ≠ 0 := fun i =>
    (cos_pos_of_angle (g.hθ i) (hθ2 i)).ne'
  refine ⟨g.logArg_eq hc, g.hW, g.hV, g.hV', fun i => ?_⟩
  show 0 ≤ Real.tan (θ i)
  rw [Real.tan_eq_sin_div_cos]
  have hπ : θ i ≤ π :=
    le_of_lt (lt_of_lt_of_le (hθ2 i) (by linarith [Real.pi_pos]))
  exact div_nonneg (Real.sin_nonneg_of_nonneg_of_le_pi (g.hθ i) hπ)
    (cos_pos_of_angle (g.hθ i) (hθ2 i)).le

/-- `log` applied to the factors `(W, tan θ, V)` recovers the tangent
`u = W·diag θ·Vᵀ` exactly. -/
lemma GeodesicForm.log_eq (g : GeodesicForm x W θ V) (hθ2 : ∀ i, θ i < π / 2) :
    log W (fun i => Real.tan (θ i)) V = W * Matrix.diagonal θ * Vᵀ := by
  unfold log
  have h : (fun i => Real.arctan (Real.tan (θ i))) = θ :=
    funext fun i => Real.arctan_tan
      (lt_of_lt_of_le (neg_lt_zero.mpr Real.pi_div_two_pos) (g.hθ i)) (hθ2 i)
  rw [h]

end Grassmann

/-- A concrete geodesic normal form on `Gr(2,1)` used by the witnesses:
`x` spans the first axis, `W` the second, with principal angle `0`. -/
lemma geodesic_witness_data :
    Grassmann.GeodesicForm (!![1; 0] : Mat 2 1) !![0; 1] (fun _ => 0) 1 := by
  refine ⟨?_, ?_, ?_, ?_, ?_, fun i => le_refl 0⟩
  · ext a b; fin_cases a; fin_cases b
    simp [Matrix.mul_apply, Fin.sum_univ_succ]
  · ext a b; fin_cases a; fin_cases b
    simp [Matrix.mul_apply, Fin.sum_univ_succ]
  · ext a b; fin_cases a; fin_cases b
    simp [Matrix.mul_apply, Fin.sum_univ_succ]
  · simp
  · simp

/-- **C1.** Exp and log are mutually inverse along geodesics inside the
injectivity radius: the factors `(W, tan θ, V)` are a valid backend SVD
of the matrix `log` decomposes, `log` then returns exactly the tangent
`u = W·diag θ·Vᵀ` (so `norm(x, u - log(x, exp(x,u))) = 0`), and the
recomputed endpoint `exp(x, log(x,y))` coincides with `y`, whose Gram
matrix `yᵀy = 1` has the all-ones singular values, at which `dist`
vanishes. -/
theorem grassmann_exp_log_mutually_inverse {m n : ℕ} (x W : Mat m n)
    (θ : Fin n → ℝ) (V : Matrix (Fin n) (Fin n) ℝ)
    (g : Grassmann.GeodesicForm x W θ V) (hθ2 : ∀ i, θ i < π / 2) :
    Grassmann.IsSVD (Grassmann.logArg x (Grassmann.exp x W θ V)) W
        (fun i => Real.tan (θ i)) V ∧
      Grassmann.log W (fun i => Real.tan (θ i)) V = W * Matrix.diagonal θ * Vᵀ ∧
      Grassmann.norm x
          (W * Matrix.diagonal θ * Vᵀ - Grassmann.log W (fun i => Real.tan (θ i)) V) = 0 ∧
      (Grassmann.exp x W θ V)ᵀ * Grassmann.exp x W θ V = 1 ∧
      Grassmann.IsSVD ((Grassmann.exp x W θ V)ᵀ * Grassmann.exp x W θ V) 1
        (fun _ => 1) 1 ∧
      Grassmann.dist (fun _ : Fin n => (1 : ℝ)) = 0 := by
  refine ⟨g.isSVD_logArg hθ2, g.log_eq hθ2, ?_, g.yty, ?_, ?_⟩
  · rw [g.log_eq hθ2, sub_self]
    unfold Grassmann.norm Grassmann.inner
    simp
  · refine ⟨?_, ?_, ?_, ?_, fun i => zero_le_one⟩
    · rw [g.yty, Matrix.diagonal_one, Matrix.transpose_one, Matrix.mul_one, Matrix.mul_one]
    · simp
    · simp
    · simp
  · unfold Grassmann.dist
    simp [Real.arccos_one]

/-- Witness for C1 on `Gr(2,1)` with principal angle `0`. -/
theorem grassmann_exp_log_mutually_inverse_witness :
    (Grassmann.GeodesicForm (!![1; 0] : Mat 2 1) !![0; 1] (fun _ => 0) 1 ∧
        ∀ i : Fin 1, (fun _ => (0 : ℝ)) i < π / 2) ∧
      Grassmann.norm (!![1; 0] : Mat 2 1)
          ((!![0; 1] : Mat 2 1) * Matrix.diagonal (fun _ : Fin 1 => (0 : ℝ)) *
              (1 : Matrix (Fin 1) (Fin 1) ℝ)ᵀ -
            Grassmann.log !![0; 1] (fun i : Fin 1 => Real.tan ((fun _ => (0 : ℝ)) i)) 1) = 0 ∧
      Grassmann.dist (fun _ : Fin 1 => (1 : ℝ)) = 0 := by
  have hg := geodesic_witness_data
  have h2 : ∀ i : Fin 1, (fun _ => (0 : ℝ)) i < π / 2 := fun _ => Real.pi_div_two_pos
  obtain ⟨_, _, hnorm, _, _, hdist⟩ :=
    grassmann_exp_log_mutually_inverse _ _ _ _ hg h2
  exact ⟨⟨hg, h2⟩, hnorm, hdist⟩

/-- **C2.** For every batch size `k` (both `k = 1` and `k > 1`), along
geodesics inside the injectivity radius: per batch slice the backend
singular values of `xᵀ·y` are `cos θ` and those of the `log` input are
`tan θ`, and the batch-aggregated geodesic distance equals the
batch-aggregated norm of the logarithm: `dist(x,y) = norm(x, log(x,y))`
as scalars over the whole stack. -/
theorem grassmann_dist_eq_norm_log {k m n : ℕ} (X W : BMat k m n)
    (θ : Fin k → Fin n → ℝ) (V : Fin k → Matrix (Fin n) (Fin n) ℝ)
    (g : ∀ i, Grassmann.GeodesicForm (X i) (W i) (θ i) (V i))
    (hθ2 : ∀ i j, θ i j < π / 2) :
    (∀ i, Grassmann.IsSVD ((X i)ᵀ * Grassmann.exp (X i) (W i) (θ i) (V i)) (V i)
        (fun j => Real.cos (θ i j)) (V i)) ∧
      (∀ i, Grassmann.IsSVD
        (Grassmann.logArg (X i) (Grassmann.exp (X i) (W i) (θ i) (V i))) (W i)
        (fun j => Real.tan (θ i j)) (V i)) ∧
      Grassmann.distB (fun i j => Real.cos (θ i j)) =
        Grassmann.normB X (Grassmann.logB W (fun i j => Real.tan (θ i j)) V) := by
  refine ⟨fun i => ⟨(g i).xty, (g i).hV, (g i).hV, (g i).hV', fun j =>
      (Grassmann.cos_pos_of_angle ((g i).hθ j) (hθ2 i j)).le⟩,
    fun i => (g i).isSVD_logArg (hθ2 i), ?_⟩
  unfold Grassmann.distB Grassmann.normB Grassmann.innerB Grassmann.logB
  congr 1
  refine Finset.sum_congr rfl fun i _ => ?_
  rw [(g i).log_eq (hθ2 i),
    Grassmann.inner_factors (X i) (W i) (V i) (g i).hW (g i).hV (θ i)]
  refine Finset.sum_congr rfl fun j _ => ?_
  have hπ : θ i j ≤ π :=
    le_of_lt (lt_of_lt_of_le (hθ2 i j) (by linarith [Real.pi_pos]))
  rw [Real.arccos_cos ((g i).hθ j) hπ]

/-- Witness for C2 at batch size `k = 1` on `Gr(2,1)` with principal
angle `0`. -/
theorem grassmann_dist_eq_norm_log_witness :
    ((∀ i : Fin 1, Grassmann.GeodesicForm
          ((fun _ : Fin 1 => (!![1; 0] : Mat 2 1)) i)
          ((fun _ : Fin 1 => (!![0; 1] : Mat 2 1)) i)
          ((fun _ : Fin 1 => fun _ : Fin 1 => (0 : ℝ)) i)
          ((fun _ : Fin 1 => (1 : Matrix (Fin 1) (Fin 1) ℝ)) i)) ∧
        ∀ i : Fin 1, ∀ j : Fin 1, (fun _ : Fin 1 => fun _ : Fin 1 => (0 : ℝ)) i j < π / 2) ∧
      Grassmann.distB (fun i j : Fin 1 =>
          Real.cos ((fun _ : Fin 1 => fun _ : Fin 1 => (0 : ℝ)) i j)) =
        Grassmann.normB (fun _ : Fin 1 => (!![1; 0] : Mat 2 1))
          (Grassmann.logB (fun _ : Fin 1 => (!![0; 1] : Mat 2 1))
            (fun i j : Fin 1 => Real.tan ((fun _ : Fin 1 => fun _ : Fin 1 => (0 : ℝ)) i j))
            (fun _ : Fin 1 => (1 : Matrix (Fin 1) (Fin 1) ℝ))) := by
  have hg : ∀ i : Fin 1, Grassmann.GeodesicForm
      ((fun _ : Fin 1 => (!![1; 0] : Mat 2 1)) i)
      ((fun _ : Fin 1 => (!![0; 1] : Mat 2 1)) i)
      ((fun _ : Fin 1 => fun _ : Fin 1 => (0 : ℝ)) i)
      ((fun _ : Fin 1 => (1 : Matrix (Fin 1) (Fin 1) ℝ)) i) :=
    fun _ => geodesic_witness_data
  have h2 : ∀ i : Fin 1, ∀ j : Fin 1,
      (fun _ : Fin 1 => fun _ : Fin 1 => (0 : ℝ)) i j < π / 2 :=
    fun _ _ => Real.pi_div_two_pos
  exact ⟨⟨hg, h2⟩, (grassmann_dist_eq_norm_log _ _ _ _ hg h2).2.2⟩

/-- **C9.** Along geodesics with principal angles in `[0, π/2]`, `log`
raises `DomainError` exactly when some principal angle is `π/2`, i.e.
when the subspaces are antipodal along some direction (outside the
injectivity radius); on every other pair it returns a value. -/
theorem grassmann_log_domain_error_iff_antipodal {m n : ℕ} (x W : Mat m n)
    (θ : Fin n → ℝ) (V : Matrix (Fin n) (Fin n) ℝ)
    (g : Grassmann.GeodesicForm x W θ V) (hθtop : ∀ i, θ i ≤ π / 2)
    (W' : Mat m n) (S' : Fin n → ℝ) (V' : Matrix (Fin n) (Fin n) ℝ) :
    (Grassmann.logE x (Grassmann.exp x W θ V) W' S' V' =
        Except.error DomainError.domainError ↔ ∃ i, θ i = π / 2) ∧
      ((∀ i, θ i < π / 2) →
        Grassmann.logE x (Grassmann.exp x W θ V) W' S' V' =
          Except.ok (Grassmann.log W' S' V')) := by
  have hiff : IsUnit (xᵀ * Grassmann.exp x W θ V).det ↔ ∀ i, θ i ≠ π / 2 := by
    rw [g.det_xty, isUnit_iff_ne_zero]
    constructor
    · intro hne i hi
      exact hne (Finset.prod_eq_zero (Finset.mem_univ i)
        (by rw [hi, Real.cos_pi_div_two]))
    · intro hall
      refine Finset.prod_ne_zero_iff.mpr fun i _ => ?_
      exact (Grassmann.cos_pos_of_angle (g.hθ i)
        (lt_of_le_of_ne (hθtop i) (hall i))).ne'
  constructor
  · by_cases h : IsUnit (xᵀ * Grassmann.exp x W θ V).det
    · refine iff_of_false ?_ ?_
      · unfold Grassmann.logE
        rw [if_pos h]
        simp
      · rintro ⟨i, hi⟩
        exact (hiff.mp h) i hi
    · refine iff_of_true ?_ ?_
      · unfold Grassmann.logE
        rw [if_neg h]
      · by_contra hno
        push_neg at hno
        exact h (hiff.mpr hno)
  · intro hlt
    unfold Grassmann.logE
    rw [if_pos (hiff.mpr fun i => (hlt i).ne)]

/-- Witness for C9 on `Gr(2,1)` with principal angle `0` (inside the
injectivity radius, so `log` succeeds). -/
theorem grassmann_log_domain_error_iff_antipodal_witness :
    (Grassmann.GeodesicForm (!![1; 0] : Mat 2 1) !![0; 1] (fun _ => 0) 1 ∧
        ∀ i : Fin 1, (fun _ => (0 : ℝ)) i ≤ π / 2) ∧
      (Grassmann.logE (!![1; 0] : Mat 2 1)
          (Grassmann.exp (!![1; 0] : Mat 2 1) !![0; 1] (fun _ => 0) 1)
          !![0; 1] (fun _ => 0) 1 =
        Except.error DomainError.domainError ↔ ∃ i : Fin 1, (fun _ => (0 : ℝ)) i = π / 2) := by
  have hg := geodesic_witness_data
  have h2 : ∀ i : Fin 1, (fun _ => (0 : ℝ)) i ≤ π / 2 := fun _ => Real.pi_div_two_pos.le
  exact ⟨⟨hg, h2⟩,
    (grassmann_log_domain_error_iff_antipodal _ _ _ _ hg h2 !![0; 1] (fun _ => 0) 1).1⟩

/-- **C8.** The Riemannian metric is the flat one: `inner` is the
elementwise-product sum over all axes (batch included), and `norm`,
defined as `sqrt(inner(x,u,u))`, is the Frobenius (Euclidean `L²`) norm
of the flattened stack. -/
theorem grassmann_inner_norm_flat {k m n : ℕ} (x u v : BMat k m n) :
    Grassmann.innerB x u v = ∑ i, ∑ a, ∑ b, u i a b * v i a b ∧
      Grassmann.normB x u = ‖Grassmann.flatten u‖ := by
  constructor
  · rfl
  · rw [Grassmann.normB, EuclideanSpace.norm_eq]
    congr 1
    rw [Fintype.sum_prod_type]
    refine Finset.sum_congr rfl fun i _ => ?_
    rw [Fintype.sum_prod_type]
    refine Finset.sum_congr rfl fun a _ => Finset.sum_congr rfl fun b _ => ?_
    rw [Real.norm_eq_abs, sq_abs, sq]
    rfl

namespace Grassmann

variable {m n : ℕ}

/-- Entries of the Gram matrix of a column family are the Euclidean
inner products of the columns. -/
lemma gram_entry (f : Fin n → EuclideanSpace ℝ (Fin m)) (a b : Fin n) :
    ((Matrix.of fun i j => f j i)ᵀ * Matrix.of fun i j => f j i) a b = ⟪f a, f b⟫ := by
  rw [Matrix.mul_apply, PiLp.inner_apply]
  refine Finset.sum_congr rfl fun l _ => ?_
  simp [Matrix.transpose_apply, RCLike.inner_apply]

/-- Gram–Schmidt orthonormalization of a linearly independent column
family yields a matrix with orthonormal columns. -/
lemma orthonormalize_mem {f : Fin n → EuclideanSpace ℝ (Fin m)}
    (hf : LinearIndependent ℝ f) :
    (orthonormalize f)ᵀ * orthonormalize f = 1 := by
  have ho := orthonormal_iff_ite.mp (gramSchmidt_orthonormal hf)
  ext a b
  rw [show orthonormalize f = Matrix.of fun i j => gramSchmidtNormed ℝ f j i from rfl,
    gram_entry, ho a b, Matrix.one_apply]

/-- Gram–Schmidt fixes an already orthonormal family. -/
lemma orthonormalize_of_orthonormal {f : Fin n → EuclideanSpace ℝ (Fin m)}
    (hf : Orthonormal ℝ f) :
    orthonormalize f = Matrix.of fun i j => f j i := by
  have h1 : gramSchmidt ℝ f = f :=
    gramSchmidt_of_orthogonal ℝ fun i j hij => hf.2 hij
  unfold orthonormalize gramSchmidtNormed
  rw [h1]
  ext i j
  simp [hf.1 j]

/-- A matrix with orthonormal columns has orthonormal column family. -/
lemma cols_orthonormal {X : Mat m n} (hX : Xᵀ * X = 1) :
    Orthonormal ℝ (cols X) := by
  rw [orthonormal_iff_ite]
  intro a b
  have h := gram_entry (cols X) a b
  rw [show (Matrix.of fun i j => cols X j i) = X from rfl, hX, Matrix.one_apply] at h
  exact h.symm

/-- Euclidean inner products of columns of two matrices are the entries
of `Aᵀ·B`. -/
lemma inner_cols (A B : Mat m n) (a b : Fin n) :
    ⟪cols A a, cols B b⟫ = (Aᵀ * B) a b := by
  rw [Matrix.mul_apply, PiLp.inner_apply]
  refine Finset.sum_congr rfl fun l _ => ?_
  simp [Matrix.transpose_apply, RCLike.inner_apply, cols]

section RetractionDerivative

/-- The straight-line path of columns is affine in `t`. -/
lemma cols_path (x u : Mat m n) (j : Fin n) :
    (fun t : ℝ => cols (x + t • u) j) = fun t => cols x j + t • cols u j :=
  rfl

lemma cols_path_hasDerivAt (x u : Mat m n) (j : Fin n) (t₀ : ℝ) :
    HasDerivAt (fun t : ℝ => cols (x + t • u) j) (cols u j) t₀ := by
  rw [cols_path]
  simpa using ((hasDerivAt_id t₀).smul_const (cols u j)).const_add (cols x j)

/-- At `t = 0`, the Gram–Schmidt vectors of the path are the columns of
`x` themselves. -/
lemma gs_path_at_zero (u : Mat m n) {x : Mat m n} (hx : xᵀ * x = 1) (l : Fin n) :
    gramSchmidt ℝ (cols (x + (0 : ℝ) • u)) l = cols x l := by
  rw [zero_smul, add_zero,
    gramSchmidt_of_orthogonal ℝ fun a b hab => (cols_orthonormal hx).2 hab]

/-- Inductive step data: each Gram–Schmidt projection term of the path
has vanishing derivative at `t = 0` when `x` is orthonormal and `u` is
tangent at `x`. -/
lemma gs_term_hasDerivAt {x u : Mat m n} (hx : xᵀ * x = 1) (hu : xᵀ * u = 0) {j l : Fin n}
    (hlj : l ≠ j)
    (ih : HasDerivAt (fun t : ℝ => gramSchmidt ℝ (cols (x + t • u)) l) (cols u l) 0) :
    HasDerivAt (fun t : ℝ =>
      (⟪gramSchmidt ℝ (cols (x + t • u)) l, cols (x + t • u) j⟫ /
          (‖gramSchmidt ℝ (cols (x + t • u)) l‖ : ℝ) ^ 2) •
        gramSchmidt ℝ (cols (x + t • u)) l) 0 0 := by
  have hux : uᵀ * x = 0 := by
    have h := congrArg Matrix.transpose hu
    rwa [Matrix.transpose_mul, Matrix.transpose_transpose, Matrix.transpose_zero] at h
  have hxl := gs_path_at_zero u hx l
  have hxuj : ⟪cols x l, cols u j⟫ = 0 := by rw [inner_cols, hu]; rfl
  have huxj : ⟪cols u l, cols x j⟫ = 0 := by rw [inner_cols, hux]; rfl
  have hxxlj : ⟪cols x l, cols x j⟫ = 0 := by
    rw [inner_cols, hx, Matrix.one_apply_ne hlj]
  have hxxll : ⟪cols x l, cols x l⟫ = 1 := by
    rw [inner_cols, hx, Matrix.one_apply_eq]
  have hN : HasDerivAt
      (fun t : ℝ => ⟪gramSchmidt ℝ (cols (x + t • u)) l, cols (x + t • u) j⟫)
      (0 : ℝ) 0 := by
    have h := ih.inner ℝ (cols_path_hasDerivAt x u j 0)
    rw [hxl, show cols (x + (0 : ℝ) • u) j = cols x j by rw [zero_smul, add_zero],
      hxuj, huxj, add_zero] at h
    exact h
  have hD : HasDerivAt
      (fun t : ℝ => (‖gramSchmidt ℝ (cols (x + t • u)) l‖ : ℝ) ^ 2) (0 : ℝ) 0 := by
    have hrw : (fun t : ℝ => (‖gramSchmidt ℝ (cols (x + t • u)) l‖ : ℝ) ^ 2)
        = fun t => ⟪gramSchmidt ℝ (cols (x + t • u)) l,
            gramSchmidt ℝ (cols (x + t • u)) l⟫ :=
      funext fun t => (real_inner_self_eq_norm_sq _).symm
    rw [hrw]
    have h := ih.inner ℝ ih
    rw [hxl, show ⟪cols x l, cols u l⟫ = 0 by rw [inner_cols, hu]; rfl,
      show ⟪cols u l, cols x l⟫ = 0 by rw [inner_cols, hux]; rfl, add_zero] at h
    exact h
  have hD0 : ((‖gramSchmidt ℝ (cols (x + (0 : ℝ) • u)) l‖ : ℝ) ^ 2) ≠ 0 := by
    rw [hxl, ← real_inner_self_eq_norm_sq, hxxll]
    exact one_ne_zero
  have hQ := (hN.div hD hD0).smul ih
  have hN0 : ⟪gramSchmidt ℝ (cols (x + (0 : ℝ) • u)) l, cols (x + (0 : ℝ) • u) j⟫ = 0 := by
    rw [hxl, show cols (x + (0 : ℝ) • u) j = cols x j by rw [zero_smul, add_zero], hxxlj]
  rw [hN0] at hQ
  simpa using hQ

/-- Each Gram–Schmidt vector of the straight path `t ↦ x + t·u` is
differentiable at `t = 0` with derivative the matching column of `u`. -/
lemma gs_path_hasDerivAt {x u : Mat m n} (hx : xᵀ * x = 1) (hu : xᵀ * u = 0) (j : Fin n) :
    HasDerivAt (fun t : ℝ => gramSchmidt ℝ (cols (x + t • u)) j) (cols u j) 0 := by
  induction j using WellFoundedLT.induction with
  | _ j ih =>
    have hfun : (fun t : ℝ => gramSchmidt ℝ (cols (x + t • u)) j)
        = fun t => cols (x + t • u) j - ∑ l ∈ Finset.Iio j,
            (⟪gramSchmidt ℝ (cols (x + t • u)) l, cols (x + t • u) j⟫ /
                (‖gramSchmidt ℝ (cols (x + t • u)) l‖ : ℝ) ^ 2) •
              gramSchmidt ℝ (cols (x + t • u)) l := by
      funext t
      rw [gramSchmidt_def]
      congr 1
      refine Finset.sum_congr rfl fun l _ => ?_
      rw [orthogonalProjection_singleton]
      norm_num
    rw [hfun]
    have hsum : HasDerivAt (fun t : ℝ => ∑ l ∈ Finset.Iio j,
        (⟪gramSchmidt ℝ (cols (x + t • u)) l, cols (x + t • u) j⟫ /
            (‖gramSchmidt ℝ (cols (x + t • u)) l‖ : ℝ) ^ 2) •
          gramSchmidt ℝ (cols (x + t • u)) l)
        (∑ l ∈ Finset.Iio j, (0 : EuclideanSpace ℝ (Fin m))) 0 :=
      HasDerivAt.sum fun l hl =>
        gs_term_hasDerivAt hx hu (Finset.mem_Iio.mp hl).ne (ih l (Finset.mem_Iio.mp hl))
    have h := (cols_path_hasDerivAt x u j 0).sub hsum
    simpa using h

/-- The normalized Gram–Schmidt vectors of the path are differentiable
at `t = 0` with derivative the matching column of `u`: the retraction
agrees with `x + t·u` to first order, elementwise. -/
lemma gsn_path_hasDerivAt {x u : Mat m n} (hx : xᵀ * x = 1) (hu : xᵀ * u = 0) (j : Fin n) :
    HasDerivAt (fun t : ℝ => gramSchmidtNormed ℝ (cols (x + t • u)) j) (cols u j) 0 := by
  have hgs := gs_path_hasDerivAt hx hu j
  have hxl := gs_path_at_zero u hx j
  have hux : uᵀ * x = 0 := by
    have h := congrArg Matrix.transpose hu
    rwa [Matrix.transpose_mul, Matrix.transpose_transpose, Matrix.transpose_zero] at h
  have hip : HasDerivAt
      (fun t : ℝ => ⟪gramSchmidt ℝ (cols (x + t • u)) j,
        gramSchmidt ℝ (cols (x + t • u)) j⟫) (0 : ℝ) 0 := by
    have h := hgs.inner ℝ hgs
    rw [hxl, show ⟪cols x j, cols u j⟫ = 0 by rw [inner_cols, hu]; rfl,
      show ⟪cols u j, cols x j⟫ = 0 by rw [inner_cols, hux]; rfl, add_zero] at h
    exact h
  have hip0 : ⟪gramSchmidt ℝ (cols (x + (0 : ℝ) • u)) j,
      gramSchmidt ℝ (cols (x + (0 : ℝ) • u)) j⟫ = 1 := by
    rw [hxl, inner_cols, hx, Matrix.one_apply_eq]
  have hnorm : HasDerivAt
      (fun t : ℝ => ‖gramSchmidt ℝ (cols (x + t • u)) j‖) (0 : ℝ) 0 := by
    have hrw : (fun t : ℝ => ‖gramSchmidt ℝ (cols (x + t • u)) j‖)
        = fun t => Real.sqrt ⟪gramSchmidt ℝ (cols (x + t • u)) j,
            gramSchmidt ℝ (cols (x + t • u)) j⟫ := by
      funext t
      rw [real_inner_self_eq_norm_sq, Real.sqrt_sq (norm_nonneg _)]
    rw [hrw]
    have h := hip.sqrt (by rw [hip0]; exact one_ne_zero)
    simpa using h
  have hninv : HasDerivAt
      (fun t : ℝ => (‖gramSchmidt ℝ (cols (x + t • u)) j‖)⁻¹) (0 : ℝ) 0 := by
    have hn0 : ‖gramSchmidt ℝ (cols (x + (0 : ℝ) • u)) j‖ ≠ 0 := by
      intro h
      have := real_inner_self_eq_norm_sq (gramSchmidt ℝ (cols (x + (0 : ℝ) • u)) j)
      rw [hip0, h] at this
      norm_num at this
    have h := hnorm.inv hn0
    simpa using h
  have hfinal := hninv.smul hgs
  have hn1 : ‖gramSchmidt ℝ (cols (x + (0 : ℝ) • u)) j‖ = 1 := by
    have := real_inner_self_eq_norm_sq (gramSchmidt ℝ (cols (x + (0 : ℝ) • u)) j)
    rw [hip0] at this
    nlinarith [norm_nonneg (gramSchmidt ℝ (cols (x + (0 : ℝ) • u)) j)]
  rw [hn1] at hfinal
  have hres : HasDerivAt
      (fun t : ℝ => (‖gramSchmidt ℝ (cols (x + t • u)) j‖)⁻¹ •
        gramSchmidt ℝ (cols (x + t • u)) j) (cols u j) 0 := by
    simpa using hfinal
  have hfun : (fun t : ℝ => gramSchmidtNormed ℝ (cols (x + t • u)) j)
      = fun t : ℝ => (‖gramSchmidt ℝ (cols (x + t • u)) j‖)⁻¹ •
          gramSchmidt ℝ (cols (x + t • u)) j := by
    funext t
    rw [gramSchmidtNormed]
    norm_num
  rw [hfun]
  exact hres

end RetractionDerivative

end Grassmann

/-- **C4.** Every point returned by `rand()` satisfies the membership
constraint exactly: `XᵀX = I_n` per batch slice, for every batch size. -/
theorem grassmann_rand_membership {k m n : ℕ} (A : BMat k m n)
    (hA : ∀ i, LinearIndependent ℝ (Grassmann.cols (A i))) :
    multiprod (multitransp (Grassmann.randB A)) (Grassmann.randB A) = multieye k n := by
  funext i
  show (Grassmann.rand (A i))ᵀ * Grassmann.rand (A i) = 1
  exact Grassmann.orthonormalize_mem (hA i)

/-- Witness for C4 at `k = 1`, `m = 2`, `n = 1`. -/
theorem grassmann_rand_membership_witness :
    (∀ i : Fin 1, LinearIndependent ℝ
        (Grassmann.cols ((fun _ : Fin 1 => (!![1; 0] : Mat 2 1)) i))) ∧
      multiprod (multitransp (Grassmann.randB (fun _ : Fin 1 => (!![1; 0] : Mat 2 1))))
        (Grassmann.randB (fun _ : Fin 1 => (!![1; 0] : Mat 2 1))) = multieye 1 1 := by
  have hA : ∀ i : Fin 1, LinearIndependent ℝ
      (Grassmann.cols ((fun _ : Fin 1 => (!![1; 0] : Mat 2 1)) i)) := by
    intro i
    refine linearIndependent_unique _ ?_
    intro h
    have h0 := congrArg (fun v => v 0) h
    simp [Grassmann.cols] at h0
  exact ⟨hA, grassmann_rand_membership _ hA⟩

/-- **C3.** The retraction lands on the manifold for every tangent
vector whose offset columns stay independent (`XᵀX = I_n` exactly), and
it agrees elementwise with `x + u` to first order in the scale of `u`:
it is exact at `u = 0` (`retraction(x,0) = x`) and every column of
`t ↦ retraction(x, t·u)` is differentiable at `t = 0` with derivative
the matching column of `u`, so `retraction(x, t·u) = x + t·u + o(t)`
elementwise — the exact-arithmetic content of the `1e-6`-scale test. -/
theorem grassmann_retraction_membership_and_linear {m n : ℕ} (x u : Mat m n)
    (h1 : LinearIndependent ℝ (Grassmann.cols (x + u))) (h2 : xᵀ * x = 1)
    (h3 : xᵀ * u = 0) :
    (Grassmann.retraction x u)ᵀ * Grassmann.retraction x u = 1 ∧
      Grassmann.retraction x 0 = x ∧
      ∀ j, HasDerivAt (fun t : ℝ => Grassmann.cols (Grassmann.retraction x (t • u)) j)
        (Grassmann.cols u j) 0 := by
  refine ⟨Grassmann.orthonormalize_mem h1, ?_, ?_⟩
  · have hfix : Grassmann.orthonormalize (Grassmann.cols x) = x := by
      rw [Grassmann.orthonormalize_of_orthonormal (Grassmann.cols_orthonormal h2)]
      rfl
    show Grassmann.orthonormalize (Grassmann.cols (x + 0)) = x
    rw [add_zero]
    exact hfix
  · intro j
    exact Grassmann.gsn_path_hasDerivAt h2 h3 j

/-- Witness for C3 at `m = 2`, `n = 1`. -/
theorem grassmann_retraction_membership_and_linear_witness :
    (LinearIndependent ℝ (Grassmann.cols ((!![1; 0] : Mat 2 1) + !![0; 1])) ∧
        (!![1; 0] : Mat 2 1)ᵀ * (!![1; 0] : Mat 2 1) = 1 ∧
        (!![1; 0] : Mat 2 1)ᵀ * (!![0; 1] : Mat 2 1) = 0) ∧
      ((Grassmann.retraction (!![1; 0] : Mat 2 1) !![0; 1])ᵀ *
          Grassmann.retraction (!![1; 0] : Mat 2 1) !![0; 1] = 1 ∧
        Grassmann.retraction (!![1; 0] : Mat 2 1) 0 = !![1; 0] ∧
        ∀ j, HasDerivAt
          (fun t : ℝ => Grassmann.cols
            (Grassmann.retraction (!![1; 0] : Mat 2 1) (t • (!![0; 1] : Mat 2 1))) j)
          (Grassmann.cols (!![0; 1] : Mat 2 1) j) 0) := by
  have h1 : LinearIndependent ℝ (Grassmann.cols ((!![1; 0] : Mat 2 1) + !![0; 1])) := by
    refine linearIndependent_unique _ ?_
    intro h
    have h0 := congrArg (fun v => v 0) h
    simp [Grassmann.cols] at h0
  have h2 : (!![1; 0] : Mat 2 1)ᵀ * (!![1; 0] : Mat 2 1) = 1 := by
    ext a b; fin_cases a; fin_cases b
    simp [Matrix.mul_apply, Fin.sum_univ_succ]
  have h3 : (!![1; 0] : Mat 2 1)ᵀ * (!![0; 1] : Mat 2 1) = 0 := by
    ext a b; fin_cases a; fin_cases b
    simp [Matrix.mul_apply, Fin.sum_univ_succ]
  exact ⟨⟨h1, h2, h3⟩, grassmann_retraction_membership_and_linear _ _ h1 h2 h3⟩

end
